import Mathlib

/-!
Shallow embedding of `collector/generic_query.go` (package `collector`) of the
elasticsearch_exporter repository, together with proofs about the embedded
functions.

Conventions of the embedding:
* Go `float64` leaf values carry no arithmetic in this code (they are only
  stored and reported), so the numeric domain is modelled by `Rat`.
  The `int` and `float64` switch arms of the Go code behave identically
  (`float64(vv)` is the identity embedding on the values concerned), so both
  are covered by the single `Json.num` constructor.
* A decoded JSON document (`map[string]interface{}`) is modelled as an
  association list `List (String × Json)`; Go map iteration order is
  unspecified, the list order stands for the iteration order actually taken.
* `json.Unmarshal` into `map[string]interface{}` is Go standard library code,
  not code of this repository; it is modelled as an abstract parameter
  `d : Decoder`, returning `some fields` on success and `none` on failure.
* The recursion of `extractJSON` through a decoded embedded string is not
  structural; it is guarded by explicit `fuel`, decremented only on that path.
  On every input whose recursion the Go code completes, a large enough fuel
  produces the same trace.
-/

namespace Collector

/-- JSON values as produced by decoding into `interface{}`:
number, boolean, string, object (association list), array, null. -/
inductive Json where
  | num (q : Rat)
  | bool (b : Bool)
  | str (s : String)
  | obj (fields : List (String × Json))
  | arr (elems : List Json)
  | null

/-- Model of `json.Unmarshal(body, &m)` for `m : map[string]interface{}`:
`some fields` when the text decodes as a JSON object, `none` otherwise. -/
def Decoder : Type := String → Option (List (String × Json))

/-- Embedding of `fix_double_underscore.ReplaceAllString(s, "$1")` for the Go
regexp `^_(.+)`: strip one leading underscore provided at least one character
follows it; `.` in Go does not match a newline, so a `'\n'` directly after the
underscore prevents the match. -/
def fixDoubleUnderscore (s : String) : String :=
  match s.data with
  | '_' :: c :: rest => if c = '\n' then s else ⟨c :: rest⟩
  | _ => s

/-- Name joining of `extractJSON`: `newMetric = metric + "_" + k` when the
accumulated metric is non-empty (then passed through `fix_double_underscore`),
otherwise the key itself. -/
def joinKey (metric k : String) : String :=
  if 0 < metric.length then fixDoubleUnderscore (metric ++ "_" ++ k) else k

/-- Name joining of `extractJSONArray`: `newMetric = metric + "_" +
strconv.Itoa(i)` when the accumulated metric is non-empty, otherwise the
index; no `fix_double_underscore` pass in the array walker. -/
def joinIdx (metric : String) (i : Nat) : String :=
  if 0 < metric.length then metric ++ "_" ++ Nat.repr i else Nat.repr i

mutual

/-- Embedding of `(c *GenericExporter) extractJSON(metric, jsonInt)`: walk the
fields in iteration order; the emitted list records the `addGauge` calls in
order (name as passed to `addGauge`, value). -/
def extractJSON (fuel : Nat) (d : Decoder) (metric : String) :
    List (String × Json) → List (String × Rat)
  | [] => []
  | (k, v) :: rest =>
      dispatchValue fuel d (joinKey metric k) v ++ extractJSON fuel d metric rest
termination_by l => (fuel, sizeOf l)

/-- Embedding of `(c *GenericExporter) extractJSONArray(metric, jsonInt)`,
with the running element index made explicit (`for k, v := range jsonInt`
yields indices `i, i+1, ...`; the top call uses `i = 0`). -/
def extractJSONArray (fuel : Nat) (d : Decoder) (metric : String) (i : Nat) :
    List Json → List (String × Rat)
  | [] => []
  | v :: rest =>
      dispatchValue fuel d (joinIdx metric i) v ++ extractJSONArray fuel d metric (i + 1) rest
termination_by l => (fuel, sizeOf l)

/-- The `switch vv := v.(type)` body, identical in `extractJSON` and
`extractJSONArray`: numbers and booleans emit one gauge at the current name;
a string is inspected (`len(vv) > 2 && vv[0] == '{'`, a byte test on the raw
string) and on successful decode recursed into with the current name as
prefix; objects and arrays recurse; anything else (null, ...) emits nothing. -/
def dispatchValue (fuel : Nat) (d : Decoder) (newMetric : String) : Json → List (String × Rat)
  | .str s =>
      if 2 < s.utf8ByteSize ∧ s.front = '\x7b' then
        match d s with
        | some stats =>
            match fuel with
            | 0 => []
            | f + 1 => extractJSON f d newMetric stats
        | none => []
      else []
  | .num q => [(newMetric, q)]
  | .bool b => [(newMetric, if b then (1 : Rat) else 0)]
  | .obj fields => extractJSON fuel d newMetric fields
  | .arr elems => extractJSONArray fuel d newMetric 0 elems
  | .null => []
termination_by v => (fuel, sizeOf v)

end

/-!
Embedding of `GetSubsystem`.  The Go function applies two regexp
replacements (`regexp` is RE2 with leftmost, Perl-style backtracking-
compatible submatch semantics):

* `strip_leading_slash = ^/?_?([^/_]+)`, replaced by `${1}`.  Anchored, so at
  most one match; the replacement keeps the captured run, hence the whole
  replacement just deletes the matched optional `/` and `_` prefix.  The
  prefix alternatives are tried in backtracking order `/_`, `/`, `_`, empty,
  and the chosen one must be followed by at least one character outside
  `{/, _}` (an empty chosen prefix leaves the string unchanged).
* `convert_slash_to_underscore = /_?([^/])`, replaced by `_${1}`: scanning
  left to right, a `/` followed by `_` and a non-`/` character becomes `_`
  plus that character (3 characters consumed); if instead the `_` is last or
  followed by `/`, backtracking matches just `/_` and yields `__`; a `/`
  followed by a plain non-`/` character becomes `_` plus that character; a
  `/` at the end or before another `/` is not matched and is kept.
-/

/-- Does the list start with a character outside `{/, _}` (the first character
of the capture group `[^/_]+`)? -/
def okHead : List Char → Bool
  | [] => false
  | c :: _ => c != '/' && c != '_'

/-- Embedding of `strip_leading_slash.ReplaceAllString(s, "${1}")`. -/
def stripLeadingSlash (l : List Char) : List Char :=
  match l with
  | [] => []
  | a :: rest =>
    if a = '/' then
      match rest with
      | [] => l
      | b :: rest2 =>
        if b = '_' then (if okHead rest2 then rest2 else l)
        else (if okHead rest then rest else l)
    else if a = '_' then (if okHead rest then rest else l)
    else l

/-- Embedding of `convert_slash_to_underscore.ReplaceAllString(s, "_${1}")`. -/
def convertSlashToUnderscore : List Char → List Char
  | [] => []
  | a :: rest =>
    if a = '/' then
      match rest with
      | [] => ['/']
      | b :: rest2 =>
        if b = '_' then
          match rest2 with
          | [] => ['_', '_']
          | e :: rest3 =>
            if e = '/' then '_' :: '_' :: convertSlashToUnderscore (e :: rest3)
            else '_' :: e :: convertSlashToUnderscore rest3
        else if b = '/' then '/' :: convertSlashToUnderscore (b :: rest2)
        else '_' :: b :: convertSlashToUnderscore rest2
    else a :: convertSlashToUnderscore rest

/-- Embedding of `GetSubsystem(URI_path)`: apply `strip_leading_slash` then
`convert_slash_to_underscore`. -/
def GetSubsystem (URI_path : String) : String :=
  ⟨convertSlashToUnderscore (stripLeadingSlash URI_path.data)⟩

/-!  The exporter state and `Collect`.  -/

/-- The mutable state of a `GenericExporter`: the gauge registry (Go map from
lowercased metric name to the gauge value set for the cluster label) and the
three fixed metrics.  The logger, HTTP client, URL and mutex are I/O
collaborators and are not part of the state the claims concern; the mutex
serialises `Collect`, so `Collect` is modelled as one atomic state step. -/
structure GenericExporter where
  subsystem : String
  ClusterName : String
  gauges : List (String × Rat)
  up : Rat
  totalScrapes : Nat
  jsonParseFailures : Nat

/-- Model of `strings.ToLower(name)`: lowercase character by character.  (Go
lowercases the full Unicode range; the metric names the claims concern are
ASCII, where this char-wise map coincides with it.) -/
def toLowerName (s : String) : String := ⟨s.data.map Char.toLower⟩

/-- Go map assignment `gauges[name] = ...`: replace the entry when the key is
present, otherwise add it. -/
def upsertGauge : List (String × Rat) → String → Rat → List (String × Rat)
  | [], n, v => [(n, v)]
  | (k, w) :: rest, n, v =>
      if k = n then (k, v) :: rest else (k, w) :: upsertGauge rest n v

/-- Embedding of `(c *GenericExporter) addGauge(name, subsystem, value, help)`:
lowercase the name, build a fresh GaugeVec for it (dropping any previous one)
and set the value for the cluster label.  Only the registry entry value is
observable state. -/
def addGauge (c : GenericExporter) (name : String) (value : Rat) : GenericExporter :=
  { c with gauges := upsertGauge c.gauges (toLowerName name) value }

/-- The `addGauge` calls performed during one walk, applied in emission
order.  The Go walk interleaves `addGauge` with the traversal, but the
traversal itself never reads the registry, so applying the emitted list in
order is the same state transformation. -/
def applyGauges (c : GenericExporter) (ps : List (String × Rat)) : GenericExporter :=
  ps.foldl (fun acc p => addGauge acc p.1 p.2) c

/-- Outcome of `ioutil.ReadAll(resp.Body)`. -/
inductive BodyResult where
  | readError
  | ok (body : String)

/-- Outcome of `c.client.Get(full_path.String())`: a transport error, or a
response carrying a status code and a body read outcome. -/
inductive FetchResult where
  | transportError
  | response (status : Nat) (b : BodyResult)

/-- Embedding of `(c *GenericExporter) Collect(ch)`: increment `totalScrapes`;
on transport error or body read error set `up` to 0 and return; otherwise set
`up` to 1, decode the body, return on decode failure, and on success extract
gauges from the decoded document with empty prefix.  The deferred channel
sends expose the current state and do not change it.  Note: the Go code never
inspects `resp.StatusCode`, sets `up` to 1 before `json.Unmarshal`, and never
increments `jsonParseFailures`. -/
def Collect (d : Decoder) (fuel : Nat) (c : GenericExporter) (r : FetchResult) :
    GenericExporter :=
  let c1 := { c with totalScrapes := c.totalScrapes + 1 }
  match r with
  | .transportError => { c1 with up := 0 }
  | .response _ .readError => { c1 with up := 0 }
  | .response _ (.ok body) =>
      let c2 := { c1 with up := 1 }
      match d body with
      | none => c2
      | some allStats => applyGauges c2 (extractJSON fuel d "" allStats)

/-- Embedding of `NewGenericQuery`: fresh registry, gauge and counters at
their zero values, subsystem derived from the URI path (the cluster name is
fetched by a side query, abstracted as a parameter). -/
def newGenericQuery (URI_path ClusterName : String) : GenericExporter :=
  { subsystem := GetSubsystem URI_path
    ClusterName := ClusterName
    gauges := []
    up := 0
    totalScrapes := 0
    jsonParseFailures := 0 }

/-!
Specification-side vocabulary used to state the flattening claims: key-paths
of leaves, the metric name determined by a key-path, leaf counting, and the
predicate selecting documents whose leaves are all numbers or booleans.
-/

/-- One step of a key-path from the document root: an object key or an array
index. -/
inductive Seg where
  | key (k : String)
  | idx (i : Nat)

/-- The metric name obtained by joining the segments of a key-path onto a
starting name, with the same joining rules the walker uses. -/
def pathName (metric : String) : List Seg → String
  | [] => metric
  | .key k :: p => pathName (joinKey metric k) p
  | .idx i :: p => pathName (joinIdx metric i) p

mutual

/-- The scalar (number or boolean) leaves of a value, in document order, each
with its key-path and the numeric value the walker assigns it. -/
def leafEntries : Json → List (List Seg × Rat)
  | .num q => [([], q)]
  | .bool b => [([], if b then (1 : Rat) else 0)]
  | .str _ => []
  | .null => []
  | .obj fields => leafFields fields
  | .arr elems => leafElems 0 elems

/-- Leaves of an object field list. -/
def leafFields : List (String × Json) → List (List Seg × Rat)
  | [] => []
  | (k, v) :: rest =>
      (leafEntries v).map (fun e => (Seg.key k :: e.1, e.2)) ++ leafFields rest

/-- Leaves of array elements, indices starting at `i`. -/
def leafElems (i : Nat) : List Json → List (List Seg × Rat)
  | [] => []
  | v :: rest =>
      (leafEntries v).map (fun e => (Seg.idx i :: e.1, e.2)) ++ leafElems (i + 1) rest

end

mutual

/-- Number of scalar (number or boolean) leaves of a value. -/
def countLeaves : Json → Nat
  | .num _ => 1
  | .bool _ => 1
  | .str _ => 0
  | .null => 0
  | .obj fields => countFields fields
  | .arr elems => countElems elems

/-- Leaf count of an object field list. -/
def countFields : List (String × Json) → Nat
  | [] => 0
  | (_, v) :: rest => countLeaves v + countFields rest

/-- Leaf count of array elements. -/
def countElems : List Json → Nat
  | [] => 0
  | v :: rest => countLeaves v + countElems rest

end

mutual

/-- Every leaf of the value is a number or a boolean: no string and no null
anywhere. -/
def scalarOnly : Json → Bool
  | .num _ => true
  | .bool _ => true
  | .str _ => false
  | .null => false
  | .obj fields => scalarFields fields
  | .arr elems => scalarElems elems

/-- `scalarOnly` on an object field list. -/
def scalarFields : List (String × Json) → Bool
  | [] => true
  | (_, v) :: rest => scalarOnly v && scalarFields rest

/-- `scalarOnly` on array elements. -/
def scalarElems : List Json → Bool
  | [] => true
  | v :: rest => scalarOnly v && scalarElems rest

end

/-- The value of the last emitted pair whose lowercased name is the given
registry key (`none` when the walk never observes the key). -/
def lastValue : List (String × Rat) → String → Option Rat
  | [], _ => none
  | p :: ps, n =>
      match lastValue ps n with
      | some v => some v
      | none => if toLowerName p.1 = n then some p.2 else none

/-- Does the character list start with a slash? -/
def headIsSlash : List Char → Bool
  | '/' :: _ => true
  | _ => false

/-- No two consecutive slashes anywhere in the list (the class of paths on
which the idempotence of `GetSubsystem` is stated). -/
def noDoubleSlash : List Char → Bool
  | [] => true
  | a :: rest => !(a == '/' && headIsSlash rest) && noDoubleSlash rest

/-- Concrete response body used to exercise `Collect` on a non-2xx status:
the JSON object text assigning 1 to key a. -/
def c3Body : String := "\x7b\"a\": 1\x7d"

/-- Concrete decoder recognising exactly `c3Body`. -/
def c3Decoder : Decoder := fun s => if s = c3Body then some [("a", Json.num 1)] else none

/-- The double-encoded JSON string of the embedded-JSON round trip: the
object text assigning 5 to key b, stored as a string field. -/
def c5Str : String := "\x7b\"b\": 5\x7d"

/-- Concrete decoder recognising exactly `c5Str`. -/
def c5Decoder : Decoder := fun s => if s = c5Str then some [("b", Json.num 5)] else none

/-- Concrete response body for the registry-lifecycle witness. -/
def c8Body : String := "\x7b\"a\": 1\x7d"

/-- Concrete decoder recognising exactly `c8Body`. -/
def c8Decoder : Decoder := fun s => if s = c8Body then some [("a", Json.num 1)] else none

/-- A concrete exporter state whose registry already holds an entry x. -/
def c8State : GenericExporter :=
  { subsystem := "s"
    ClusterName := "cn"
    gauges := [("x", 1)]
    up := 0
    totalScrapes := 0
    jsonParseFailures := 0 }

/-! Helper lemmas about the fixed counters. -/

theorem applyGauges_jsonParseFailures (ps : List (String × Rat)) :
    ∀ c : GenericExporter, (applyGauges c ps).jsonParseFailures = c.jsonParseFailures := by
  induction ps with
  | nil => intro c; rfl
  | cons p ps ih => intro c; exact ih (addGauge c p.1 p.2)

theorem collect_jsonParseFailures (d : Decoder) (fuel : Nat) (c : GenericExporter)
    (r : FetchResult) : (Collect d fuel c r).jsonParseFailures = c.jsonParseFailures := by
  cases r with
  | transportError => rfl
  | response status b =>
      cases b with
      | readError => rfl
      | ok body =>
          cases h : d body with
          | none => simp [Collect, h]
          | some allStats => simp [Collect, h, applyGauges_jsonParseFailures]

/-- Claim C9: the json_parse_failures counter is never incremented by any
operation: starting from a fresh exporter, after any sequence of Collect
calls with any decode outcomes, the counter still reads its initial value
0. -/
theorem spec_c9_parse_failures_zero (d : Decoder) (fuel : Nat)
    (URI_path ClusterName : String) (rs : List FetchResult) :
    (rs.foldl (Collect d fuel) (newGenericQuery URI_path ClusterName)).jsonParseFailures = 0 := by
  have h : ∀ (rs : List FetchResult) (c : GenericExporter),
      (rs.foldl (Collect d fuel) c).jsonParseFailures = c.jsonParseFailures := by
    intro rs
    induction rs with
    | nil => intro c; rfl
    | cons r rs ih =>
        intro c
        simpa [collect_jsonParseFailures] using ih (Collect d fuel c r)
  exact h rs _

/-- Claim C2: on a transport error, Collect sets the up gauge to 0, leaves
json_parse_failures unchanged, increments total_scrapes by exactly 1 and
leaves the gauge registry unchanged.  (The model function is total, so no
run diverges or panics.) -/
theorem spec_c2_transport_error (d : Decoder) (fuel : Nat) (c : GenericExporter) :
    (Collect d fuel c .transportError).up = 0 ∧
    (Collect d fuel c .transportError).jsonParseFailures = c.jsonParseFailures ∧
    (Collect d fuel c .transportError).totalScrapes = c.totalScrapes + 1 ∧
    (Collect d fuel c .transportError).gauges = c.gauges :=
  ⟨rfl, rfl, rfl, rfl⟩

/-- Claim C1, actual code behaviour at the claimed failing input: when the
body is read but fails to decode, Collect leaves up at 1 (it was set before
decoding), leaves json_parse_failures unchanged (the counter is declared but
never incremented anywhere in the code) and leaves the registry unchanged.
The claim and the spec say up is set to 0 and the counter incremented; only
the registry clause matches the code. -/
theorem spec_c1_decode_failure (d : Decoder) (fuel : Nat) (c : GenericExporter)
    (status : Nat) (body : String) (h : d body = none) :
    (Collect d fuel c (.response status (.ok body))).up = 1 ∧
    (Collect d fuel c (.response status (.ok body))).jsonParseFailures = c.jsonParseFailures ∧
    (Collect d fuel c (.response status (.ok body))).gauges = c.gauges ∧
    (Collect d fuel c (.response status (.ok body))).totalScrapes = c.totalScrapes + 1 := by
  simp [Collect, h]

/-- Witness for C1 at a concrete undecodable body. -/
theorem spec_c1_witness :
    ((fun _ => none : Decoder) "not json" = none) ∧
    (Collect (fun _ => none) 0 (newGenericQuery "/x" "cn") (.response 200 (.ok "not json"))).up = 1 ∧
    (Collect (fun _ => none) 0 (newGenericQuery "/x" "cn")
      (.response 200 (.ok "not json"))).jsonParseFailures
      = (newGenericQuery "/x" "cn").jsonParseFailures ∧
    (Collect (fun _ => none) 0 (newGenericQuery "/x" "cn") (.response 200 (.ok "not json"))).gauges
      = (newGenericQuery "/x" "cn").gauges := by
  refine ⟨rfl, ?_⟩
  have h := spec_c1_decode_failure (fun _ => none) 0 (newGenericQuery "/x" "cn") 200 "not json" rfl
  exact ⟨h.1, h.2.1, h.2.2.1⟩

/-- Claim C3 as amended: Collect never inspects the response status code;
for any completed fetch the outcome is the same for every status value, so
the body is read, decoded and flattened regardless of the status. -/
theorem spec_c3_status_ignored (d : Decoder) (fuel : Nat) (c : GenericExporter)
    (s1 s2 : Nat) (b : BodyResult) :
    Collect d fuel c (.response s1 b) = Collect d fuel c (.response s2 b) := by
  cases b <;> rfl

/-- Counterexample to claim C3 as stated: a scrape completing with status
404 and a decodable JSON body is decoded and flattened into the registry,
although the claim says the body is processed only on a 2xx status. -/
theorem spec_c3_cex :
    (Collect c3Decoder 0 (newGenericQuery "/x" "cn") (.response 404 (.ok c3Body))).gauges
      = [("a", 1)] ∧
    (newGenericQuery "/x" "cn").gauges = [] := by
  constructor
  · simp [Collect, c3Decoder, c3Body, newGenericQuery, applyGauges, extractJSON, dispatchValue,
      joinKey, addGauge, upsertGauge, toLowerName]
  · rfl

/-- Claim C6: flattening the document with single key _shards mapping to the
object with key total and value 3, starting from the empty prefix, emits the
single metric name shards_total: the join of the non-empty prefix _shards
with the key total has its single leading underscore stripped. -/
theorem spec_c6_underscore_collapse (fuel : Nat) (d : Decoder) :
    extractJSON fuel d "" [("_shards", .obj [("total", .num 3)])] = [("shards_total", 3)] := by
  simp [extractJSON, dispatchValue, joinKey, fixDoubleUnderscore]
  decide

/-- Claim C10: array flattening applies no leading-underscore strip: for a
non-empty prefix the emitted element name is exactly the prefix, an
underscore and the decimal index, even when the prefix begins with an
underscore; in particular the document with key _shards mapping to the
one-element array 3 flattens to the single metric name _shards_0. -/
theorem spec_c10_array_names (fuel : Nat) (d : Decoder) :
    (∀ (metric : String) (i : Nat) (q : Rat), 0 < metric.length →
       extractJSONArray fuel d metric i [Json.num q] = [(metric ++ "_" ++ Nat.repr i, q)]) ∧
    extractJSON fuel d "" [("_shards", .arr [.num 3])] = [("_shards_0", 3)] := by
  constructor
  · intro metric i q h
    simp [extractJSONArray, dispatchValue, joinIdx, h]
  · simp [extractJSON, extractJSONArray, dispatchValue, joinKey, joinIdx, fixDoubleUnderscore]
    decide

/-- Witness for C10 at the concrete prefix _shards and index 0. -/
theorem spec_c10_witness :
    (0 < ("_shards" : String).length) ∧
    extractJSONArray 0 (fun _ => none) "_shards" 0 [Json.num 3] = [("_shards_0", 3)] := by
  constructor
  · decide
  · have h := (spec_c10_array_names 0 (fun _ => none)).1 "_shards" 0 3 (by decide)
    simpa using h

/-- Claim C5: a string leaf never emits a metric at its own path; the decode
of the string is attempted exactly when its byte length exceeds 2 and its
first character is a left brace, and on success the decoded object is walked
with the same prefix; the document with key a holding the double-encoded
object text (b mapped to 5) flattens to the single metric a_b with value 5
and no metric named a. -/
theorem spec_c5_embedded_string :
    (∀ (fuel : Nat) (d : Decoder) (m s : String),
        ¬(2 < s.utf8ByteSize ∧ s.front = '\x7b') → dispatchValue fuel d m (.str s) = []) ∧
    (∀ (fuel : Nat) (d : Decoder) (m s : String) (fields : List (String × Json)),
        2 < s.utf8ByteSize → s.front = '\x7b' → d s = some fields →
        dispatchValue (fuel + 1) d m (.str s) = extractJSON fuel d m fields) ∧
    (∀ (fuel : Nat) (d : Decoder) (m s : String),
        d s = none → dispatchValue fuel d m (.str s) = []) ∧
    extractJSON 1 c5Decoder "" [("a", .str c5Str)] = [("a_b", 5)] ∧
    (∀ q : Rat, ("a", q) ∉ extractJSON 1 c5Decoder "" [("a", .str c5Str)]) := by
  have h4 : extractJSON 1 c5Decoder "" [("a", .str c5Str)] = [("a_b", 5)] := by
    simp [extractJSON, dispatchValue, joinKey, c5Decoder, c5Str, fixDoubleUnderscore]
    decide
  refine ⟨?_, ?_, ?_, h4, ?_⟩
  · intro fuel d m s h
    simp [dispatchValue, h]
  · intro fuel d m s fields h1 h2 hd
    simp [dispatchValue, h1, h2, hd]
  · intro fuel d m s h
    simp [dispatchValue, h]
  · intro q hq
    rw [h4] at hq
    simp at hq

/-- Witness for C5: a short string is skipped, the concrete double-encoded
string is decoded and recursed into, and an undecodable string emits
nothing. -/
theorem spec_c5_witness :
    (¬(2 < ("xx" : String).utf8ByteSize ∧ ("xx" : String).front = '\x7b') ∧
     dispatchValue 0 c5Decoder "m" (.str "xx") = []) ∧
    (2 < c5Str.utf8ByteSize ∧ c5Str.front = '\x7b' ∧
     c5Decoder c5Str = some [("b", Json.num 5)] ∧
     dispatchValue 1 c5Decoder "a" (.str c5Str) = extractJSON 0 c5Decoder "a" [("b", Json.num 5)]) ∧
    ((fun _ => none : Decoder) "zzz" = none ∧
     dispatchValue 0 (fun _ => none) "m" (.str "zzz") = []) := by
  refine ⟨⟨by decide, ?_⟩, ⟨by decide, by decide, rfl, ?_⟩, ⟨rfl, ?_⟩⟩
  · exact spec_c5_embedded_string.1 0 c5Decoder "m" "xx" (by decide)
  · exact spec_c5_embedded_string.2.1 0 c5Decoder "a" c5Str [("b", Json.num 5)]
      (by decide) (by decide) rfl
  · exact spec_c5_embedded_string.2.2.1 0 (fun _ => none) "m" "zzz" rfl

/-! Flattening of documents whose leaves are all numbers or booleans
(claim C4): the walk emits exactly the leaves, each under the name
determined by its key-path. -/

mutual

theorem dispatchValue_scalar (fuel : Nat) (d : Decoder) (m : String) (v : Json)
    (h : scalarOnly v = true) :
    dispatchValue fuel d m v = (leafEntries v).map (fun e => (pathName m e.1, e.2)) := by
  cases v with
  | num q => simp [dispatchValue, leafEntries, pathName]
  | bool b => simp [dispatchValue, leafEntries, pathName]
  | str s => simp [scalarOnly] at h
  | null => simp [scalarOnly] at h
  | obj fields =>
      have hf : scalarFields fields = true := by simpa [scalarOnly] using h
      have hrec := extractJSON_scalar fuel d m fields hf
      simpa [dispatchValue, leafEntries] using hrec
  | arr elems =>
      have he : scalarElems elems = true := by simpa [scalarOnly] using h
      have hrec := extractJSONArray_scalar fuel d m 0 elems he
      simpa [dispatchValue, leafEntries] using hrec

theorem extractJSON_scalar (fuel : Nat) (d : Decoder) (m : String)
    (l : List (String × Json)) (h : scalarFields l = true) :
    extractJSON fuel d m l = (leafFields l).map (fun e => (pathName m e.1, e.2)) := by
  match l with
  | [] => simp [extractJSON, leafFields]
  | (k, v) :: rest =>
      have h1 : scalarOnly v = true := by
        have hh := h
        simp [scalarFields, Bool.and_eq_true] at hh
        exact hh.1
      have h2 : scalarFields rest = true := by
        have hh := h
        simp [scalarFields, Bool.and_eq_true] at hh
        exact hh.2
      have e1 := dispatchValue_scalar fuel d (joinKey m k) v h1
      have e2 := extractJSON_scalar fuel d m rest h2
      simp [extractJSON, leafFields, e1, e2, List.map_append, List.map_map]
      exact fun a b _ => rfl

theorem extractJSONArray_scalar (fuel : Nat) (d : Decoder) (m : String) (i : Nat)
    (l : List Json) (h : scalarElems l = true) :
    extractJSONArray fuel d m i l = (leafElems i l).map (fun e => (pathName m e.1, e.2)) := by
  match l with
  | [] => simp [extractJSONArray, leafElems]
  | v :: rest =>
      have h1 : scalarOnly v = true := by
        have hh := h
        simp [scalarElems, Bool.and_eq_true] at hh
        exact hh.1
      have h2 : scalarElems rest = true := by
        have hh := h
        simp [scalarElems, Bool.and_eq_true] at hh
        exact hh.2
      have e1 := dispatchValue_scalar fuel d (joinIdx m i) v h1
      have e2 := extractJSONArray_scalar fuel d m (i + 1) rest h2
      simp [extractJSONArray, leafElems, e1, e2, List.map_append, List.map_map]
      exact fun a b _ => rfl

end

mutual

theorem countLeaves_eq (v : Json) : countLeaves v = (leafEntries v).length := by
  cases v with
  | num q => simp [countLeaves, leafEntries]
  | bool b => simp [countLeaves, leafEntries]
  | str s => simp [countLeaves, leafEntries]
  | null => simp [countLeaves, leafEntries]
  | obj fields => simpa [countLeaves, leafEntries] using countFields_eq fields
  | arr elems => simpa [countLeaves, leafEntries] using countElems_eq 0 elems

theorem countFields_eq (l : List (String × Json)) : countFields l = (leafFields l).length := by
  match l with
  | [] => simp [countFields, leafFields]
  | (k, v) :: rest =>
      simp [countFields, leafFields, countLeaves_eq v, countFields_eq rest]

theorem countElems_eq (i : Nat) (l : List Json) : countElems l = (leafElems i l).length := by
  match l with
  | [] => simp [countElems, leafElems]
  | v :: rest =>
      simp [countElems, leafElems, countLeaves_eq v, countElems_eq (i + 1) rest]

end

/-- Claim C4: for every document whose leaves are all numbers or booleans,
the walk emits exactly as many metrics as the document has leaves, and the
emitted list is the image of the leaves under the pure name function of
their key-paths, so each emitted name is a deterministic function of its
key-path. -/
theorem spec_c4_scalar_flatten (fuel : Nat) (d : Decoder) (m : String)
    (l : List (String × Json)) (h : scalarFields l = true) :
    (extractJSON fuel d m l).length = countFields l ∧
    extractJSON fuel d m l = (leafFields l).map (fun e => (pathName m e.1, e.2)) := by
  have he := extractJSON_scalar fuel d m l h
  exact ⟨by rw [he, List.length_map, countFields_eq], he⟩

/-- Witness for C4 at a concrete two-leaf document. -/
theorem spec_c4_witness :
    scalarFields [("a", Json.num 2), ("b", Json.obj [("c", Json.bool true)])] = true ∧
    ((extractJSON 0 (fun _ => none) ""
        [("a", Json.num 2), ("b", Json.obj [("c", Json.bool true)])]).length
      = countFields [("a", Json.num 2), ("b", Json.obj [("c", Json.bool true)])] ∧
     extractJSON 0 (fun _ => none) "" [("a", Json.num 2), ("b", Json.obj [("c", Json.bool true)])]
      = (leafFields [("a", Json.num 2), ("b", Json.obj [("c", Json.bool true)])]).map
          (fun e => (pathName "" e.1, e.2))) :=
  ⟨by decide, spec_c4_scalar_flatten 0 (fun _ => none) "" _ (by decide)⟩

/-! Registry lifecycle (claim C8). -/

theorem lookupPairCons (a k : String) (b : Rat) (l : List (String × Rat)) :
    List.lookup a ((k, b) :: l) = if a = k then some b else List.lookup a l := by
  by_cases h : a = k
  · subst h; simp [List.lookup]
  · have hb : (a == k) = false := by simpa using h
    simp [List.lookup, hb, h]

theorem lookup_upsertGauge (g : List (String × Rat)) (n : String) (v : Rat) (m : String) :
    List.lookup m (upsertGauge g n v) = if m = n then some v else List.lookup m g := by
  induction g with
  | nil =>
      rw [show upsertGauge [] n v = [(n, v)] from rfl, lookupPairCons]
  | cons p rest ih =>
      obtain ⟨k, w⟩ := p
      by_cases hk : k = n
      · subst hk
        have hu : upsertGauge ((k, w) :: rest) k v = (k, v) :: rest := by
          simp [upsertGauge]
        rw [hu, lookupPairCons, lookupPairCons]
        by_cases hm : m = k <;> simp [hm]
      · simp only [upsertGauge, if_neg hk]
        rw [lookupPairCons, lookupPairCons, ih]
        by_cases hm : m = k
        · subst hm; simp [hk]
        · simp [hm]

theorem lookup_applyGauges (ps : List (String × Rat)) :
    ∀ (c : GenericExporter) (n : String),
      List.lookup n (applyGauges c ps).gauges
        = match lastValue ps n with
          | some v => some v
          | none => List.lookup n c.gauges := by
  induction ps with
  | nil => intro c n; simp [applyGauges, lastValue]
  | cons p ps ih =>
      intro c n
      have hstep : applyGauges c (p :: ps) = applyGauges (addGauge c p.1 p.2) ps := rfl
      rw [hstep, ih]
      cases hl : lastValue ps n with
      | some v => simp [lastValue, hl]
      | none =>
          simp only [lastValue, hl, addGauge, lookup_upsertGauge]
          by_cases h : toLowerName p.1 = n
          · simp [h]
          · have h2 : ¬ n = toLowerName p.1 := fun hh => h hh.symm
            simp [h, h2]

theorem applyGauges_isSome (ps : List (String × Rat)) (c : GenericExporter) (n : String)
    (h : (List.lookup n c.gauges).isSome = true) :
    (List.lookup n (applyGauges c ps).gauges).isSome = true := by
  rw [lookup_applyGauges]
  cases hl : lastValue ps n with
  | some v => simp
  | none => simpa using h

theorem collect_gauges_isSome (d : Decoder) (fuel : Nat) (c : GenericExporter)
    (r : FetchResult) (n : String) (h : (List.lookup n c.gauges).isSome = true) :
    (List.lookup n (Collect d fuel c r).gauges).isSome = true := by
  cases r with
  | transportError => exact h
  | response status b =>
      cases b with
      | readError => exact h
      | ok body =>
          cases hd : d body with
          | none => simpa [Collect, hd] using h
          | some allStats =>
              have heq : Collect d fuel c (.response status (.ok body))
                  = applyGauges { c with totalScrapes := c.totalScrapes + 1, up := 1 }
                      (extractJSON fuel d "" allStats) := by
                simp [Collect, hd]
              rw [heq]
              exact applyGauges_isSome _ _ _ (by simpa using h)

/-- Claim C8: an entry present in the gauge registry survives every later
sequence of scrapes, whatever their outcomes; and when a scrape observes a
name, the registry entry afterwards holds the last value emitted for that
name in that scrape, independent of any previous value (overwrite, no
accumulation). -/
theorem spec_c8_registry (d : Decoder) (fuel : Nat) :
    (∀ (rs : List FetchResult) (c : GenericExporter) (name : String),
       (List.lookup name c.gauges).isSome = true →
       (List.lookup name (rs.foldl (Collect d fuel) c).gauges).isSome = true) ∧
    (∀ (c : GenericExporter) (status : Nat) (body : String) (fields : List (String × Json))
       (name : String) (v : Rat),
       d body = some fields →
       lastValue (extractJSON fuel d "" fields) name = some v →
       List.lookup name (Collect d fuel c (.response status (.ok body))).gauges = some v) := by
  constructor
  · intro rs
    induction rs with
    | nil => intro c name h; exact h
    | cons r rs ih =>
        intro c name h
        exact ih (Collect d fuel c r) name (collect_gauges_isSome d fuel c r name h)
  · intro c status body fields name v hd hl
    have heq : Collect d fuel c (.response status (.ok body))
        = applyGauges { c with totalScrapes := c.totalScrapes + 1, up := 1 }
            (extractJSON fuel d "" fields) := by
      simp [Collect, hd]
    rw [heq, lookup_applyGauges, hl]

/-- Witness for C8: the pre-existing entry x survives a failing scrape, and
a successful scrape observing the name a leaves the last emitted value 1 in
its entry. -/
theorem spec_c8_witness :
    ((List.lookup "x" c8State.gauges).isSome = true ∧
     (List.lookup "x" ([FetchResult.transportError].foldl
         (Collect c8Decoder 0) c8State).gauges).isSome = true) ∧
    (c8Decoder c8Body = some [("a", Json.num 1)] ∧
     lastValue (extractJSON 0 c8Decoder "" [("a", Json.num 1)]) "a" = some 1 ∧
     List.lookup "a" (Collect c8Decoder 0 c8State (.response 200 (.ok c8Body))).gauges
       = some 1) := by
  have hlast : lastValue (extractJSON 0 c8Decoder "" [("a", Json.num 1)]) "a" = some 1 := by
    simp [extractJSON, dispatchValue, joinKey, lastValue, toLowerName]
  refine ⟨⟨by decide, ?_⟩, ⟨rfl, hlast, ?_⟩⟩
  · exact (spec_c8_registry c8Decoder 0).1 [FetchResult.transportError] c8State "x" (by decide)
  · exact (spec_c8_registry c8Decoder 0).2 c8State 200 c8Body [("a", Json.num 1)] "a" 1 rfl hlast

/-! Derivation of the subsystem name (claim C7): behaviour of the two
regexp replacements of GetSubsystem. -/


theorem noDS_tail (a : Char) (rest : List Char) (h : noDoubleSlash (a :: rest) = true) :
    noDoubleSlash rest = true := by
  simp [noDoubleSlash, Bool.and_eq_true] at h
  exact h.2

theorem noDS_tail' (l : List Char) (h : noDoubleSlash l = true) :
    noDoubleSlash l.tail = true := by
  cases l with
  | nil => exact h
  | cons a rest => exact noDS_tail a rest h

theorem conv_cons_ne (c : Char) (l : List Char) (hc : ¬ c = '/') :
    convertSlashToUnderscore (c :: l) = c :: convertSlashToUnderscore l := by
  rw [convertSlashToUnderscore.eq_def]
  simp [hc]

theorem conv_slash_plain (e : Char) (r : List Char) (he : ¬ e = '/') (he2 : ¬ e = '_') :
    convertSlashToUnderscore ('/' :: e :: r) = '_' :: e :: convertSlashToUnderscore r := by
  rw [convertSlashToUnderscore.eq_def]
  simp [he, he2]

theorem conv_slash_us (e : Char) (r : List Char) (he : ¬ e = '/') :
    convertSlashToUnderscore ('/' :: '_' :: e :: r) = '_' :: e :: convertSlashToUnderscore r := by
  rw [convertSlashToUnderscore.eq_def]
  simp [he]

theorem conv_idem (l : List Char) (h : noDoubleSlash l = true) :
    convertSlashToUnderscore (convertSlashToUnderscore l) = convertSlashToUnderscore l := by
  cases l with
  | nil => rfl
  | cons a rest =>
    by_cases ha : a = '/'
    · subst ha
      cases rest with
      | nil => rfl
      | cons b rest2 =>
        by_cases hb : b = '_'
        · subst hb
          cases rest2 with
          | nil => rfl
          | cons e rest3 =>
            by_cases he : e = '/'
            · subst he
              have ih := conv_idem ('/' :: rest3) (noDS_tail _ _ (noDS_tail _ _ h))
              have h1 : convertSlashToUnderscore ('/' :: '_' :: '/' :: rest3)
                  = '_' :: '_' :: convertSlashToUnderscore ('/' :: rest3) := rfl
              rw [h1, conv_cons_ne '_' _ (by decide), conv_cons_ne '_' _ (by decide), ih]
            · have ih := conv_idem rest3
                (noDS_tail _ _ (noDS_tail _ _ (noDS_tail _ _ h)))
              rw [conv_slash_us e rest3 he, conv_cons_ne '_' _ (by decide),
                conv_cons_ne e _ he, ih]
        · by_cases hb2 : b = '/'
          · subst hb2
            exact absurd h (by simp [noDoubleSlash, headIsSlash])
          · have ih := conv_idem rest2 (noDS_tail _ _ (noDS_tail _ _ h))
            rw [conv_slash_plain b rest2 hb2 hb, conv_cons_ne '_' _ (by decide),
              conv_cons_ne b _ hb2, ih]
    · have ih := conv_idem rest (noDS_tail _ _ h)
      rw [conv_cons_ne a rest ha, conv_cons_ne a _ ha, ih]
termination_by l.length


theorem okHead_true {x : List Char} (h : okHead x = true) :
    ∃ c r, x = c :: r ∧ ¬ c = '/' ∧ ¬ c = '_' := by
  cases x with
  | nil => simp [okHead] at h
  | cons c r =>
      simp [okHead] at h
      exact ⟨c, r, rfl, h.1, h.2⟩

theorem strip_cons_plain (c : Char) (l : List Char) (h1 : ¬ c = '/') (h2 : ¬ c = '_') :
    stripLeadingSlash (c :: l) = c :: l := by
  simp [stripLeadingSlash, h1, h2]

theorem strip_us_stuck (rest : List Char) (h : okHead rest = false) :
    stripLeadingSlash ('_' :: rest) = '_' :: rest := by
  simp [stripLeadingSlash, h]

theorem strip_slash_us_stuck (rest2 : List Char) (h : okHead rest2 = false) :
    stripLeadingSlash ('/' :: '_' :: rest2) = '/' :: '_' :: rest2 := by
  simp [stripLeadingSlash, h]

theorem strip_us_us (x : List Char) :
    stripLeadingSlash ('_' :: '_' :: x) = '_' :: '_' :: x := by
  simp [stripLeadingSlash, okHead]

theorem strip_conv_strip (l : List Char) (h : noDoubleSlash l = true) :
    stripLeadingSlash (convertSlashToUnderscore (stripLeadingSlash l))
      = convertSlashToUnderscore (stripLeadingSlash l) := by
  cases l with
  | nil => rfl
  | cons a rest =>
    by_cases ha : a = '/'
    · subst ha
      cases rest with
      | nil => rfl
      | cons b rest2 =>
        by_cases hb : b = '_'
        · subst hb
          cases hok : okHead rest2 with
          | true =>
              obtain ⟨c, r, rfl, hc1, hc2⟩ := okHead_true hok
              have hs : stripLeadingSlash ('/' :: '_' :: c :: r) = c :: r := by
                simp [stripLeadingSlash, okHead, hc1, hc2]
              rw [hs, conv_cons_ne c r hc1, strip_cons_plain c _ hc1 hc2]
          | false =>
              rw [strip_slash_us_stuck rest2 hok]
              cases rest2 with
              | nil => rfl
              | cons e rest3 =>
                  by_cases he : e = '/'
                  · subst he
                    have h1 : convertSlashToUnderscore ('/' :: '_' :: '/' :: rest3)
                        = '_' :: '_' :: convertSlashToUnderscore ('/' :: rest3) := rfl
                    rw [h1]
                    exact strip_us_us _
                  · have he2 : e = '_' := by
                      simp [okHead] at hok
                      exact hok he
                    subst he2
                    have h1 : convertSlashToUnderscore ('/' :: '_' :: '_' :: rest3)
                        = '_' :: '_' :: convertSlashToUnderscore rest3 := rfl
                    rw [h1]
                    exact strip_us_us _
        · by_cases hb2 : b = '/'
          · subst hb2
            exact absurd h (by simp [noDoubleSlash, headIsSlash])
          · have hs : stripLeadingSlash ('/' :: b :: rest2) = b :: rest2 := by
              simp [stripLeadingSlash, okHead, hb, hb2]
            rw [hs, conv_cons_ne b rest2 hb2, strip_cons_plain b _ hb2 hb]
    · by_cases ha2 : a = '_'
      · subst ha2
        cases hok : okHead rest with
        | true =>
            obtain ⟨c, r, rfl, hc1, hc2⟩ := okHead_true hok
            have hs : stripLeadingSlash ('_' :: c :: r) = c :: r := by
              simp [stripLeadingSlash, okHead, hc1, hc2]
            rw [hs, conv_cons_ne c r hc1, strip_cons_plain c _ hc1 hc2]
        | false =>
            rw [strip_us_stuck rest hok]
            cases rest with
            | nil => rfl
            | cons e rest3 =>
                by_cases he : e = '/'
                · subst he
                  have h1 : convertSlashToUnderscore ('_' :: '/' :: rest3)
                      = '_' :: convertSlashToUnderscore ('/' :: rest3) :=
                    conv_cons_ne '_' _ (by decide)
                  rw [h1]
                  cases rest3 with
                  | nil => rfl
                  | cons b r2 =>
                      have hb' : ¬ b = '/' := by
                        intro hbe
                        subst hbe
                        have h2 := noDS_tail _ _ h
                        simp [noDoubleSlash, headIsSlash] at h2
                      by_cases hbu : b = '_'
                      · subst hbu
                        cases r2 with
                        | nil => rfl
                        | cons e2 r3 =>
                            by_cases he2 : e2 = '/'
                            · subst he2
                              have h2 : convertSlashToUnderscore ('/' :: '_' :: '/' :: r3)
                                  = '_' :: '_' :: convertSlashToUnderscore ('/' :: r3) := rfl
                              rw [h2]
                              exact strip_us_us _
                            · rw [conv_slash_us e2 r3 he2]
                              exact strip_us_us _
                      · rw [conv_slash_plain b r2 hb' hbu]
                        exact strip_us_us _
                · have he2 : e = '_' := by
                    simp [okHead] at hok
                    exact hok he
                  subst he2
                  have h1 : convertSlashToUnderscore ('_' :: '_' :: rest3)
                      = '_' :: '_' :: convertSlashToUnderscore rest3 := by
                    rw [conv_cons_ne '_' _ (by decide), conv_cons_ne '_' _ (by decide)]
                  rw [h1]
                  exact strip_us_us _
      · rw [strip_cons_plain a rest ha ha2, conv_cons_ne a rest ha,
          strip_cons_plain a _ ha ha2]


theorem strip_cases (l : List Char) :
    stripLeadingSlash l = l ∨ stripLeadingSlash l = l.tail ∨
      stripLeadingSlash l = l.tail.tail := by
  cases l with
  | nil => left; rfl
  | cons a rest =>
    by_cases ha : a = '/'
    · subst ha
      cases rest with
      | nil => left; rfl
      | cons b rest2 =>
        by_cases hb : b = '_'
        · subst hb
          cases hok : okHead rest2 with
          | true =>
              right; right
              simp [stripLeadingSlash, hok]
          | false =>
              left
              exact strip_slash_us_stuck rest2 hok
        · cases hok : okHead (b :: rest2) with
          | true =>
              right; left
              simp [stripLeadingSlash, okHead, hb] at hok ⊢
              simp [hok]
          | false =>
              left
              simp [stripLeadingSlash, hb, hok]
    · by_cases ha2 : a = '_'
      · subst ha2
        cases hok : okHead rest with
        | true => right; left; simp [stripLeadingSlash, hok]
        | false => left; exact strip_us_stuck rest hok
      · left; exact strip_cons_plain a rest ha ha2

theorem noDS_strip (l : List Char) (h : noDoubleSlash l = true) :
    noDoubleSlash (stripLeadingSlash l) = true := by
  rcases strip_cases l with hs | hs | hs
  · rw [hs]; exact h
  · rw [hs]; exact noDS_tail' l h
  · rw [hs]; exact noDS_tail' l.tail (noDS_tail' l h)

theorem strip_ne_nil (l : List Char) (h : l ≠ []) : stripLeadingSlash l ≠ [] := by
  cases l with
  | nil => exact absurd rfl h
  | cons a rest =>
    by_cases ha : a = '/'
    · subst ha
      cases rest with
      | nil => exact fun hc => List.noConfusion hc
      | cons b rest2 =>
        by_cases hb : b = '_'
        · subst hb
          cases hok : okHead rest2 with
          | true =>
              obtain ⟨c, r, rfl, hc1, hc2⟩ := okHead_true hok
              simp [stripLeadingSlash, okHead, hc1, hc2]
          | false =>
              rw [strip_slash_us_stuck rest2 hok]
              exact fun hc => List.noConfusion hc
        · cases hok : okHead (b :: rest2) with
          | true =>
              have hok2 := hok
              simp [okHead] at hok2
              have hs : stripLeadingSlash ('/' :: b :: rest2) = b :: rest2 := by
                simp [stripLeadingSlash, okHead, hok2.1, hok2.2, hb]
              rw [hs]
              exact fun hc => List.noConfusion hc
          | false =>
              simp only [stripLeadingSlash, if_pos rfl]
              simp [hb, hok]
    · by_cases ha2 : a = '_'
      · subst ha2
        cases hok : okHead rest with
        | true =>
            obtain ⟨c, r, rfl, hc1, hc2⟩ := okHead_true hok
            simp [stripLeadingSlash, okHead, hc1, hc2]
        | false =>
            rw [strip_us_stuck rest hok]
            exact fun hc => List.noConfusion hc
      · rw [strip_cons_plain a rest ha ha2]
        exact fun hc => List.noConfusion hc

theorem conv_ne_nil (l : List Char) (h : l ≠ []) : convertSlashToUnderscore l ≠ [] := by
  cases l with
  | nil => exact absurd rfl h
  | cons a rest =>
    by_cases ha : a = '/'
    · subst ha
      cases rest with
      | nil => exact fun hc => List.noConfusion hc
      | cons b rest2 =>
        by_cases hb : b = '_'
        · subst hb
          cases rest2 with
          | nil => exact fun hc => List.noConfusion hc
          | cons e rest3 =>
            by_cases he : e = '/'
            · subst he
              have h1 : convertSlashToUnderscore ('/' :: '_' :: '/' :: rest3)
                  = '_' :: '_' :: convertSlashToUnderscore ('/' :: rest3) := rfl
              rw [h1]
              exact fun hc => List.noConfusion hc
            · rw [conv_slash_us e rest3 he]
              exact fun hc => List.noConfusion hc
        · by_cases hb2 : b = '/'
          · subst hb2
            have h1 : convertSlashToUnderscore ('/' :: '/' :: rest2)
                = '/' :: convertSlashToUnderscore ('/' :: rest2) := by
              rw [convertSlashToUnderscore.eq_def]
              simp
            rw [h1]
            exact fun hc => List.noConfusion hc
          · rw [conv_slash_plain b rest2 hb2 hb]
            exact fun hc => List.noConfusion hc
    · rw [conv_cons_ne a rest ha]
      exact fun hc => List.noConfusion hc


/-- Counterexample to claim C7 as stated: GetSubsystem is not idempotent on
every path; on the path of two slashes then a it yields slash-underscore-a,
which a second application collapses to a. -/
theorem spec_c7_cex : GetSubsystem (GetSubsystem "//a") ≠ GetSubsystem "//a" := by decide

/-- Claim C7 as amended: GetSubsystem is a pure function, hence
deterministic; it is idempotent on every path without two consecutive
slashes (unrestricted idempotence fails, see the counterexample); every
non-empty path yields a non-empty subsystem; and the cluster-health path
maps to cluster_health. -/
theorem spec_c7_subsystem :
    (∀ p : String, noDoubleSlash p.data = true →
       GetSubsystem (GetSubsystem p) = GetSubsystem p) ∧
    (∀ p : String, p ≠ "" → GetSubsystem p ≠ "") ∧
    GetSubsystem "/_cluster/health" = "cluster_health" := by
  refine ⟨?_, ?_, by decide⟩
  · intro p hp
    have h1 : stripLeadingSlash (convertSlashToUnderscore (stripLeadingSlash p.data))
        = convertSlashToUnderscore (stripLeadingSlash p.data) := strip_conv_strip p.data hp
    show (⟨convertSlashToUnderscore (stripLeadingSlash
        (convertSlashToUnderscore (stripLeadingSlash p.data)))⟩ : String)
      = ⟨convertSlashToUnderscore (stripLeadingSlash p.data)⟩
    rw [h1, conv_idem _ (noDS_strip p.data hp)]
  · intro p hp hc
    have hdata : convertSlashToUnderscore (stripLeadingSlash p.data) = [] := by
      have := congrArg String.data hc
      exact this
    have hne : p.data ≠ [] := by
      intro hd
      apply hp
      cases p
      simp at hd
      simp [hd]
    exact conv_ne_nil _ (strip_ne_nil _ hne) hdata

/-- Witness for C7 at the concrete cluster-health path. -/
theorem spec_c7_witness :
    (noDoubleSlash ("/_cluster/health" : String).data = true ∧
     GetSubsystem (GetSubsystem "/_cluster/health") = GetSubsystem "/_cluster/health") ∧
    (("/_nodes" : String) ≠ "" ∧ GetSubsystem "/_nodes" ≠ "") :=
  ⟨⟨by decide, spec_c7_subsystem.1 _ (by decide)⟩,
   ⟨by decide, spec_c7_subsystem.2.1 _ (by decide)⟩⟩

end Collector
